import Mathlib

/-!
Verification of the spaced-repetition progress engine of the `brazilian`
vocabulary backend (`src/routes/flashcards.js`, `src/routes/words.js`).

Modelling conventions (shallow embedding of the JavaScript source):
* JS numbers are modelled as rationals (`ℚ`); timestamps are rationals
  (milliseconds since the epoch); review counts are naturals.
* A JS value that may be absent or of the wrong type is an `Option`:
  `none` models "missing / null / undefined / not a number".
* A JS object keyed by word ids is an association list
  `List (String × _)`; lookup finds the first matching key.
* `user.progress.words` is the flat object written by the flashcards
  routes; some user documents additionally carry a nested `map`
  sub-structure under `progress.words` — the location read by
  `words.js` and unset by the DELETE handler.  The two locations are
  kept as separate fields (`flat` and `nested`); real word ids are
  ObjectId hex strings and never collide with the literal key "map".
* Truthiness: stored sub-structures, entry objects and `Date` values
  are JS objects, hence truthy whenever present; so `!x` on them is
  modelled by `x = none`.  Numeric fields tested with `||` use the JS
  rule that `0` is falsy.
-/

/-- A raw stored progress entry: any field may be absent or non-numeric. -/
structure RawEntry where
  ease : Option ℚ
  interval : Option ℚ
  reviewCount : Option ℕ
  lastReviewed : Option ℚ
  nextReview : Option ℚ
deriving DecidableEq, Repr

/-- One tuple of the `wordsHistory` log: a word id plus raw entry fields. -/
structure HistoryEntry where
  wordId : String
  ease : Option ℚ
  interval : Option ℚ
  reviewCount : Option ℕ
  lastReviewed : Option ℚ
  nextReview : Option ℚ
deriving DecidableEq, Repr

/-- The `progress.words` object: the flat keys written by the flashcards
routes, and the optional nested `map` sub-structure read by `words.js`. -/
structure WordsStore where
  flat : List (String × RawEntry)
  nested : Option (List (String × RawEntry))
deriving DecidableEq, Repr

/-- The `progress` sub-document of a user; every container may be absent. -/
structure ProgressDoc where
  words : Option WordsStore
  wordsHistory : Option (List HistoryEntry)
  mastered : Option (List String)
  needsReview : Option (List String)
deriving DecidableEq, Repr

/-- A user record as the engine sees it; `progress` itself may be absent. -/
structure UserRecord where
  progress : Option ProgressDoc
deriving DecidableEq, Repr

/-- A canonical progress entry (all numeric fields present), as produced
by the scheduler and consumed by the merge paths. -/
structure ProgressEntry where
  ease : ℚ
  interval : ℚ
  reviewCount : ℕ
  lastReviewed : Option ℚ
  nextReview : Option ℚ
deriving DecidableEq, Repr

/-- First-match association-list lookup (JS object property read). -/
def lookupEntry (l : List (String × RawEntry)) (wordId : String) : Option RawEntry :=
  (l.find? (fun p => p.1 = wordId)).map Prod.snd

/-- JS object property write: overwrite in place if the key exists
(keeping its position), else append the new key at the end. -/
def upsertEntry (l : List (String × RawEntry)) (wordId : String) (e : RawEntry) :
    List (String × RawEntry) :=
  if (l.find? (fun p => p.1 = wordId)).isSome then
    l.map (fun p => if p.1 = wordId then (wordId, e) else p)
  else
    l ++ [(wordId, e)]

/-- The empty progress structure installed by `ensureProgressStructure`. -/
def emptyProgressDoc : ProgressDoc :=
  { words := some ⟨[], none⟩
    wordsHistory := some []
    mastered := some []
    needsReview := some [] }

/-- `ensureProgressStructure(user)` (flashcards.js 21–37): installs the
missing containers (mutating the record) and returns it. -/
def ensureProgressStructure (user : UserRecord) : UserRecord :=
  match user.progress with
  | none => { progress := some emptyProgressDoc }
  | some p =>
      { progress := some
          { words := some (p.words.getD ⟨[], none⟩)
            wordsHistory := some (p.wordsHistory.getD [])
            mastered := some (p.mastered.getD [])
            needsReview := some (p.needsReview.getD []) } }

/-- The all-defaults entry (flashcards.js 69–75). -/
def defaultRawEntry : RawEntry :=
  { ease := some 2.5, interval := some 0, reviewCount := some 0
    lastReviewed := none, nextReview := none }

/-- Normalization of a history tuple (flashcards.js 58–64): non-numeric
`ease` / `interval` / `reviewCount` fall back to defaults, the two
timestamps pass through. -/
def normalizeHistoryEntry (h : HistoryEntry) : RawEntry :=
  { ease := some (h.ease.getD 2.5)
    interval := some (h.interval.getD 0)
    reviewCount := some (h.reviewCount.getD 0)
    lastReviewed := h.lastReviewed
    nextReview := h.nextReview }

/-- `getProgressEntry(user, wordId)` (flashcards.js 39–76): prefer the
flat map entry (returned verbatim), fall back to the normalized history
tuple, else the all-defaults entry. -/
def getProgressEntry (user : UserRecord) (wordId : String) : RawEntry :=
  let u := ensureProgressStructure user
  let p := (u.progress.getD emptyProgressDoc)
  let words := p.words.getD ⟨[], none⟩
  let history := p.wordsHistory.getD []
  match lookupEntry words.flat wordId with
  | some e => e
  | none =>
      match history.find? (fun e => e.wordId = wordId) with
      | some h => normalizeHistoryEntry h
      | none => defaultRawEntry

/-- The record as left behind by a `getProgressEntry` call: the only writes of the body
are the container installations of `ensureProgressStructure`. -/
def getProgressEntryPost (user : UserRecord) : UserRecord :=
  ensureProgressStructure user

/-- A canonical entry serialized back to raw storage form. -/
def toRaw (e : ProgressEntry) : RawEntry :=
  { ease := some e.ease, interval := some e.interval
    reviewCount := some e.reviewCount
    lastReviewed := e.lastReviewed, nextReview := e.nextReview }

/-- `setProgressEntry(user, wordId, entry)` (flashcards.js 78–122):
upsert into the flat map, upsert into the history log, and recompute the
`mastered` / `needsReview` membership from the written interval. -/
def setProgressEntry (user : UserRecord) (wordId : String) (entry : ProgressEntry) :
    UserRecord :=
  let u := ensureProgressStructure user
  let p := (u.progress.getD emptyProgressDoc)
  let words := p.words.getD ⟨[], none⟩
  let history := p.wordsHistory.getD []
  let mastered := p.mastered.getD []
  let needsReview := p.needsReview.getD []
  let words2 : WordsStore := ⟨upsertEntry words.flat wordId (toRaw entry), words.nested⟩
  let historyObj : HistoryEntry :=
    { wordId := wordId, ease := some entry.ease, interval := some entry.interval
      reviewCount := some entry.reviewCount
      lastReviewed := entry.lastReviewed, nextReview := entry.nextReview }
  let history2 :=
    if (history.find? (fun e => e.wordId = wordId)).isSome then
      history.map (fun e => if e.wordId = wordId then historyObj else e)
    else history ++ [historyObj]
  let pair :=
    if entry.interval ≥ 21 then
      ((if wordId ∈ mastered then mastered else mastered ++ [wordId]),
       needsReview.erase wordId)
    else if entry.interval < 7 then
      (mastered.erase wordId,
       (if wordId ∈ needsReview then needsReview else needsReview ++ [wordId]))
    else
      (mastered.erase wordId, needsReview.erase wordId)
  { progress := some
      { words := some words2
        wordsHistory := some history2
        mastered := some pair.1
        needsReview := some pair.2 } }

/-- The milliseconds in a day (`24 * 60 * 60 * 1000`). -/
def dayMs : ℚ := 24 * 60 * 60 * 1000

/-- The ease assignment of the review handler (flashcards.js 203, 207,
211): everything that is not `easy` or `medium` falls into the `hard`
branch. -/
def newEase (ease : ℚ) (difficulty : String) : ℚ :=
  if difficulty = "easy" then min 3 (ease + 0.15)
  else if difficulty = "medium" then max 1.3 (ease - 0.05)
  else max 1.3 (ease - 0.2)

/-- The interval assignment of the review handler (flashcards.js 204,
208, 212), taking the already-updated ease (the code assigns `ease`
before `interval` inside each branch). -/
def newInterval (interval e2 : ℚ) (difficulty : String) : ℚ :=
  if difficulty = "easy" then
    (if interval = 0 then 1 else ((⌈interval * e2⌉ : ℤ) : ℚ))
  else if difficulty = "medium" then
    (if interval = 0 then 1 else ((⌈interval * (1.2 : ℚ)⌉ : ℤ) : ℚ))
  else 1

/-- The SM-2 style update of the review handler (flashcards.js 196–224),
acting on an already-normalized prior entry. -/
def scheduleReview (prev : ProgressEntry) (difficulty : String) (now : ℚ) :
    ProgressEntry :=
  let e2 := newEase prev.ease difficulty
  let i2 := newInterval prev.interval e2 difficulty
  { ease := e2
    interval := i2
    reviewCount := prev.reviewCount + 1
    lastReviewed := some now
    nextReview := some (now + i2 * dayMs) }

/-- The normalization the handler applies to of a raw prior entry (flashcards.js
197–199): non-numeric ease / interval / reviewCount fall back to
defaults. -/
def normalizePrev (r : RawEntry) : ProgressEntry :=
  { ease := r.ease.getD 2.5
    interval := r.interval.getD 0
    reviewCount := r.reviewCount.getD 0
    lastReviewed := r.lastReviewed
    nextReview := r.nextReview }

/-- The review endpoint (flashcards.js 170–240) as a state transformer:
reject (return `none`) only when `wordId` or `difficulty` is falsy,
otherwise compute the update and write it back through
`setProgressEntry`. -/
def reviewStep (user : UserRecord) (wordId difficulty : String) (now : ℚ) :
    Option (UserRecord × ProgressEntry) :=
  if wordId = "" ∨ difficulty = "" then none
  else
    let u := ensureProgressStructure user
    let prev := normalizePrev (getProgressEntry u wordId)
    let updated := scheduleReview prev difficulty now
    some (setProgressEntry u wordId updated, updated)

/-- The `mastered` list of a record, empty at any missing level. -/
def masteredOf (user : UserRecord) : List String :=
  (user.progress.bind ProgressDoc.mastered).getD []

/-- The `needsReview` list of a record, empty at any missing level. -/
def needsReviewOf (user : UserRecord) : List String :=
  (user.progress.bind ProgressDoc.needsReview).getD []

/-- The `wordsHistory` log of a record, empty at any missing level. -/
def historyOf (user : UserRecord) : List HistoryEntry :=
  (user.progress.bind ProgressDoc.wordsHistory).getD []

/-- The flat `progress.words` keys of a record. -/
def flatWordsOf (user : UserRecord) : List (String × RawEntry) :=
  ((user.progress.bind ProgressDoc.words).map WordsStore.flat).getD []

/-- The nested `progress.words.map` keys of a record, as read by
`words.js` through optional chaining. -/
def nestedWordsOf (user : UserRecord) : List (String × RawEntry) :=
  ((user.progress.bind ProgressDoc.words).bind WordsStore.nested).getD []

/-- JS `x || d` on a numeric field: `0`, `null` and `undefined` all fall
back to the default. -/
def jsOr (x : Option ℚ) (d : ℚ) : ℚ :=
  match x with
  | none => d
  | some v => if v = 0 then d else v

/-- The per-word progress merged by the `words.js` listing read
(words.js 67–77): look the word up in the nested `progress.words.map`
structure and default-fill with `||`. -/
def wordsMergeProgress (user : UserRecord) (wordId : String) : ProgressEntry :=
  match lookupEntry (nestedWordsOf user) wordId with
  | some r =>
      { ease := jsOr r.ease 2.5
        interval := jsOr r.interval 0
        reviewCount := r.reviewCount.getD 0
        lastReviewed := r.lastReviewed
        nextReview := r.nextReview }
  | none =>
      { ease := 2.5, interval := 0, reviewCount := 0
        lastReviewed := none, nextReview := none }

/-- The per-word progress merged by the flashcards listing read
(flashcards.js 144–156): the codec entry with the same default-filling
as lines 197–199 of the review path. -/
def flashMergeProgress (user : UserRecord) (wordId : String) : ProgressEntry :=
  normalizePrev (getProgressEntry user wordId)

/-- The due predicate of the `/due` handler (flashcards.js 263–275): due
iff the codec entry has no `nextReview`, or it is `≤ now`. -/
def dueWord (user : UserRecord) (now : ℚ) (wordId : String) : Bool :=
  match (getProgressEntry user wordId).nextReview with
  | none => true
  | some t => decide (t ≤ now)

/-- The selection made by the `/due` handler (flashcards.js 263–276): filter the
catalog, in catalog order, by the due predicate. -/
def dueList (catalog : List String) (user : UserRecord) (now : ℚ) : List String :=
  catalog.filter (dueWord user now)

/-- The per-user update of the DELETE `/:id` handler (words.js 244–247):
`$unset` of `progress.words.map.<wordId>` — remove the key from the
nested map when the whole path exists, and touch nothing else. -/
def deleteWordFromRecord (user : UserRecord) (wordId : String) : UserRecord :=
  match user.progress with
  | none => user
  | some p =>
      match p.words with
      | none => user
      | some ws =>
          match ws.nested with
          | none => user
          | some m =>
              { progress := some
                  { p with words := some ⟨ws.flat, some (m.filter (fun q => !(decide (q.1 = wordId))))⟩ } }

/-! ## Spec-side definitions

The following definitions are written from the words of the claims (not
from the source); they exist to be compared with the source embeddings
above. -/

/-- The scheduler update exactly as the claim states it, defined only on
the three valid outcomes (an invalid outcome leaves the entry unchanged,
which is never exercised by the theorems below). -/
def scheduleClaim (prev : ProgressEntry) (difficulty : String) (now : ℚ) :
    ProgressEntry :=
  if difficulty = "easy" then
    let newEase := min 3 (prev.ease + 0.15)
    let newInterval : ℚ :=
      if prev.interval = 0 then 1 else ((⌈prev.interval * newEase⌉ : ℤ) : ℚ)
    { ease := newEase, interval := newInterval
      reviewCount := prev.reviewCount + 1
      lastReviewed := some now, nextReview := some (now + newInterval * dayMs) }
  else if difficulty = "medium" then
    let newEase := max 1.3 (prev.ease - 0.05)
    let newInterval : ℚ :=
      if prev.interval = 0 then 1 else ((⌈prev.interval * (1.2 : ℚ)⌉ : ℤ) : ℚ)
    { ease := newEase, interval := newInterval
      reviewCount := prev.reviewCount + 1
      lastReviewed := some now, nextReview := some (now + newInterval * dayMs) }
  else if difficulty = "hard" then
    let newEase := max 1.3 (prev.ease - 0.2)
    { ease := newEase, interval := 1
      reviewCount := prev.reviewCount + 1
      lastReviewed := some now, nextReview := some (now + 1 * dayMs) }
  else prev

/-- The codec exactly as the claim states it: a keyed-mapping hit is
returned **with default-filled missing fields** (this is where the claim
and the source differ — the source returns the mapping entry verbatim). -/
def getProgressEntryClaim (user : UserRecord) (wordId : String) : RawEntry :=
  match lookupEntry (flatWordsOf user) wordId with
  | some e =>
      { ease := some (e.ease.getD 2.5)
        interval := some (e.interval.getD 0)
        reviewCount := some (e.reviewCount.getD 0)
        lastReviewed := e.lastReviewed
        nextReview := e.nextReview }
  | none =>
      match (historyOf user).find? (fun e => e.wordId = wordId) with
      | some h => normalizeHistoryEntry h
      | none => defaultRawEntry

/-- The amended codec: identical to the resolution order of the claim except
that a keyed-mapping hit is returned verbatim, without default-filling. -/
def getProgressEntryAmended (user : UserRecord) (wordId : String) : RawEntry :=
  match lookupEntry (flatWordsOf user) wordId with
  | some e => e
  | none =>
      match (historyOf user).find? (fun e => e.wordId = wordId) with
      | some h => normalizeHistoryEntry h
      | none => defaultRawEntry

/-- Whether a record already carries every progress container, so that
`ensureProgressStructure` has nothing to install. -/
def hasFullStructure (user : UserRecord) : Bool :=
  match user.progress with
  | none => false
  | some p =>
      p.words.isSome && p.wordsHistory.isSome && p.mastered.isSome &&
        p.needsReview.isSome

/-! ## Concrete records used by witnesses and counterexamples -/

/-- A user with no progress structure at all. -/
def emptyUser : UserRecord := { progress := none }

/-- The entry written by a first `easy` review at time `0`. -/
def writtenEntry : ProgressEntry :=
  { ease := 2.65, interval := 1, reviewCount := 1
    lastReviewed := some 0, nextReview := some 86400000 }

/-- A record holding one just-written review for word `w`. -/
def reviewedUser : UserRecord := setProgressEntry emptyUser "w" writtenEntry

/-- A record whose keyed mapping holds a partial entry (no `ease`). -/
def sparseMapUser : UserRecord :=
  { progress := some
      { words := some ⟨[("w",
          { ease := none, interval := some 5, reviewCount := some 1
            lastReviewed := none, nextReview := none })], none⟩
        wordsHistory := some []
        mastered := some []
        needsReview := some [] } }

/-- A long-interval entry classifying its word as mastered. -/
def masteredEntry : ProgressEntry :=
  { ease := 2.8, interval := 30, reviewCount := 5
    lastReviewed := none, nextReview := none }

/-- A record holding word `w` in the flat mapping, the nested `map`,
the history log and the `mastered` set. -/
def masteredUser : UserRecord :=
  { progress := some
      { words := some ⟨[("w", toRaw masteredEntry)], some [("w", toRaw masteredEntry)]⟩
        wordsHistory := some [{ wordId := "w", ease := some 2.8, interval := some 30
                                reviewCount := some 5, lastReviewed := none, nextReview := none }]
        mastered := some ["w"]
        needsReview := some [] } }

/-! ## Helper lemmas -/

/-- A positive rational has a ceiling of at least one. -/
lemma one_le_ceilQ {x : ℚ} (hx : 0 < x) : (1 : ℚ) ≤ ((⌈x⌉ : ℤ) : ℚ) := by
  have h : (0 : ℤ) < ⌈x⌉ := Int.ceil_pos.mpr hx
  have h2 : (1 : ℤ) ≤ ⌈x⌉ := h
  exact_mod_cast h2

/-- The updated ease stays within the `[1.3, 3]` band whenever the prior
ease was in it, for every difficulty string. -/
lemma newEase_bounds (e : ℚ) (d : String) (h1 : 1.3 ≤ e) (h2 : e ≤ 3) :
    1.3 ≤ newEase e d ∧ newEase e d ≤ 3 := by
  by_cases hd : d = "easy"
  · simp only [newEase, hd, if_true, reduceIte]
    exact ⟨le_min (by norm_num) (by linarith), min_le_left _ _⟩
  · by_cases hm : d = "medium"
    · simp only [newEase, hd, hm, if_false, if_true, reduceIte]
      exact ⟨le_max_left _ _, max_le (by norm_num) (by linarith)⟩
    · simp only [newEase, hd, hm, if_false, reduceIte]
      exact ⟨le_max_left _ _, max_le (by norm_num) (by linarith)⟩

/-- The updated interval is at least one day whenever the prior interval
is non-negative and the updated ease is at least `1.3`. -/
lemma one_le_newInterval (i e2 : ℚ) (d : String) (hi : 0 ≤ i) (he : 1.3 ≤ e2) :
    1 ≤ newInterval i e2 d := by
  have hpos : ∀ f : ℚ, 1 ≤ f → i ≠ 0 → (1 : ℚ) ≤ ((⌈i * f⌉ : ℤ) : ℚ) := by
    intro f hf hz
    have hip : 0 < i := lt_of_le_of_ne hi (Ne.symm hz)
    exact one_le_ceilQ (mul_pos hip (by linarith))
  by_cases hd : d = "easy"
  · subst hd
    show 1 ≤ if i = 0 then (1 : ℚ) else ((⌈i * e2⌉ : ℤ) : ℚ)
    by_cases hz : i = 0
    · rw [if_pos hz]
    · rw [if_neg hz]
      exact hpos e2 (by linarith) hz
  · by_cases hm : d = "medium"
    · subst hm
      show 1 ≤ if i = 0 then (1 : ℚ) else ((⌈i * (1.2 : ℚ)⌉ : ℤ) : ℚ)
      by_cases hz : i = 0
      · rw [if_pos hz]
      · rw [if_neg hz]
        exact hpos 1.2 (by norm_num) hz
    · rw [newInterval, if_neg hd, if_neg hm]

/-- C1: on each of the three valid outcomes, the review handler computes
the new entry exactly as the claimed table states it — `easy` grows the
interval by the newly updated ease, `medium` by the fixed factor `1.2`,
`hard` resets to one day, and in every case `lastReviewed := now`,
`nextReview := now + newInterval` days and `reviewCount` increments. -/
theorem scheduleReview_matches_claim (prev : ProgressEntry) (d : String) (now : ℚ)
    (hd : d = "easy" ∨ d = "medium" ∨ d = "hard") :
    scheduleReview prev d now = scheduleClaim prev d now := by
  rcases hd with h | h | h <;> subst h <;> rfl

/-- Witness for C1: the first `easy` review from the default entry. -/
theorem scheduleReview_matches_claim_witness :
    scheduleReview ⟨2.5, 0, 0, none, none⟩ "easy" 0 =
      scheduleClaim ⟨2.5, 0, 0, none, none⟩ "easy" 0 :=
  scheduleReview_matches_claim ⟨2.5, 0, 0, none, none⟩ "easy" 0 (Or.inl rfl)

/-- C7: one review step from a prior entry obeying the data-model bounds
produces `1.3 ≤ ease ≤ 3`, `interval ≥ 1`, and increments `reviewCount`
by exactly one — for every difficulty string, valid or not. -/
theorem scheduleReview_bounds (prev : ProgressEntry) (d : String) (now : ℚ)
    (h1 : 1.3 ≤ prev.ease) (h2 : prev.ease ≤ 3) (h3 : 0 ≤ prev.interval) :
    1.3 ≤ (scheduleReview prev d now).ease ∧
      (scheduleReview prev d now).ease ≤ 3 ∧
      1 ≤ (scheduleReview prev d now).interval ∧
      (scheduleReview prev d now).reviewCount = prev.reviewCount + 1 := by
  have he := newEase_bounds prev.ease d h1 h2
  exact ⟨he.1, he.2, one_le_newInterval prev.interval (newEase prev.ease d) d h3 he.1, rfl⟩

/-- Witness for C7: the first `easy` review from the default entry. -/
theorem scheduleReview_bounds_witness :
    1.3 ≤ (scheduleReview ⟨2.5, 0, 0, none, none⟩ "easy" 0).ease ∧
      (scheduleReview ⟨2.5, 0, 0, none, none⟩ "easy" 0).ease ≤ 3 ∧
      1 ≤ (scheduleReview ⟨2.5, 0, 0, none, none⟩ "easy" 0).interval ∧
      (scheduleReview ⟨2.5, 0, 0, none, none⟩ "easy" 0).reviewCount = 0 + 1 :=
  scheduleReview_bounds ⟨2.5, 0, 0, none, none⟩ "easy" 0
    (by norm_num) (by norm_num) (by norm_num)

/-- C10: from a scheduled entry (`interval ≥ 1`) within the ease band,
an `easy` or `medium` review strictly grows the interval. -/
theorem scheduleReview_interval_strict_mono (prev : ProgressEntry) (d : String) (now : ℚ)
    (hd : d = "easy" ∨ d = "medium") (hi : 1 ≤ prev.interval)
    (h1 : 1.3 ≤ prev.ease) (h2 : prev.ease ≤ 3) :
    prev.interval < (scheduleReview prev d now).interval := by
  have hipos : (0 : ℚ) < prev.interval := by linarith
  have hine : prev.interval ≠ 0 := ne_of_gt hipos
  rcases hd with h | h <;> subst h
  · have he : (1.45 : ℚ) ≤ newEase prev.ease "easy" := by
      rw [show newEase prev.ease "easy" = min 3 (prev.ease + 0.15) from rfl]
      exact le_min (by norm_num) (by linarith)
    have hlt : prev.interval < prev.interval * newEase prev.ease "easy" := by
      have := mul_lt_mul_of_pos_left (show (1 : ℚ) < newEase prev.ease "easy" by linarith) hipos
      simpa using this
    have hceil := Int.le_ceil (prev.interval * newEase prev.ease "easy")
    have hInt : (scheduleReview prev "easy" now).interval =
        ((⌈prev.interval * newEase prev.ease "easy"⌉ : ℤ) : ℚ) := by
      show (if prev.interval = 0 then (1 : ℚ)
        else ((⌈prev.interval * newEase prev.ease "easy"⌉ : ℤ) : ℚ)) = _
      exact if_neg hine
    rw [hInt]
    linarith
  · have hlt : prev.interval < prev.interval * (1.2 : ℚ) := by
      have := mul_lt_mul_of_pos_left (show (1 : ℚ) < (1.2 : ℚ) by norm_num) hipos
      simpa using this
    have hceil := Int.le_ceil (prev.interval * (1.2 : ℚ))
    have hInt : (scheduleReview prev "medium" now).interval =
        ((⌈prev.interval * (1.2 : ℚ)⌉ : ℤ) : ℚ) := by
      show (if prev.interval = 0 then (1 : ℚ)
        else ((⌈prev.interval * (1.2 : ℚ)⌉ : ℤ) : ℚ)) = _
      exact if_neg hine
    rw [hInt]
    linarith

/-- Witness for C10: an `easy` review at interval ten grows it. -/
theorem scheduleReview_interval_strict_mono_witness :
    (⟨2.5, 10, 0, none, none⟩ : ProgressEntry).interval <
      (scheduleReview ⟨2.5, 10, 0, none, none⟩ "easy" 0).interval :=
  scheduleReview_interval_strict_mono ⟨2.5, 10, 0, none, none⟩ "easy" 0
    (Or.inl rfl) (by norm_num) (by norm_num) (by norm_num)

/-- C3 counterexample: a keyed-mapping hit is returned verbatim, not
default-filled — the stored entry without an `ease` field comes back
without one, where the claim promises `ease = 2.5`. -/
theorem getProgressEntry_map_hit_verbatim_cex :
    getProgressEntry sparseMapUser "w" ≠ getProgressEntryClaim sparseMapUser "w" ∧
      (getProgressEntry sparseMapUser "w").ease = none ∧
      (getProgressEntryClaim sparseMapUser "w").ease = some 2.5 :=
  ⟨by decide, rfl, rfl⟩

/-- C3 (amended): the codec is total and resolves in the claimed order —
keyed-mapping entry first (verbatim), then the normalized history tuple,
then the all-defaults entry — and a record with no structure at any
level yields the default entry. -/
theorem getProgressEntry_resolution (u : UserRecord) (w : String) :
    getProgressEntry u w = getProgressEntryAmended u w ∧
      getProgressEntry { progress := none } w = defaultRawEntry := by
  refine ⟨?_, rfl⟩
  rcases u with ⟨_ | ⟨a, b, c, d⟩⟩
  · rfl
  · cases a <;> cases b <;> rfl

/-- C9 counterexample: calling the codec on a record with no progress
structure installs the empty containers, so the record is not identical
before and after the call. -/
theorem getProgressEntry_mutates_missing_structure_cex :
    getProgressEntryPost { progress := none } ≠ ({ progress := none } : UserRecord) := by
  decide

/-- C9 (amended): the codec call leaves the record unchanged whenever
the progress containers are already present; its only write installs
empty containers on records that lack them. -/
theorem getProgressEntryPost_id_of_full_structure (u : UserRecord)
    (h : hasFullStructure u = true) : getProgressEntryPost u = u := by
  rcases u with ⟨_ | ⟨a, b, c, d⟩⟩
  · simp [hasFullStructure] at h
  · cases a <;> cases b <;> cases c <;> cases d <;>
      first
        | rfl
        | simp [hasFullStructure] at h

/-- Witness for the amended C9: a record with all containers present. -/
theorem getProgressEntryPost_id_of_full_structure_witness :
    getProgressEntryPost ⟨some ⟨some ⟨[], none⟩, some [], some [], some []⟩⟩ =
      ⟨some ⟨some ⟨[], none⟩, some [], some [], some []⟩⟩ :=
  getProgressEntryPost_id_of_full_structure _ rfl

/-- The `mastered` list after a write: pushed (if absent) when the
written interval reaches 21, erased otherwise. -/
lemma masteredOf_setProgressEntry (u : UserRecord) (w : String) (e : ProgressEntry) :
    masteredOf (setProgressEntry u w e) =
      if 21 ≤ e.interval then
        (if w ∈ masteredOf u then masteredOf u else masteredOf u ++ [w])
      else (masteredOf u).erase w := by
  rcases u with ⟨_ | p⟩ <;>
    simp only [setProgressEntry, masteredOf, ensureProgressStructure, emptyProgressDoc,
      ge_iff_le, Option.bind_eq_bind, Option.some_bind, Option.getD_some, Option.none_bind,
      Option.getD_none] <;>
    split_ifs <;>
    simp_all

/-- The `needsReview` list after a write: pushed (if absent) when the
written interval is below 7, erased otherwise. -/
lemma needsReviewOf_setProgressEntry (u : UserRecord) (w : String) (e : ProgressEntry) :
    needsReviewOf (setProgressEntry u w e) =
      if 21 ≤ e.interval then (needsReviewOf u).erase w
      else if e.interval < 7 then
        (if w ∈ needsReviewOf u then needsReviewOf u else needsReviewOf u ++ [w])
      else (needsReviewOf u).erase w := by
  rcases u with ⟨_ | p⟩ <;>
    simp only [setProgressEntry, needsReviewOf, ensureProgressStructure, emptyProgressDoc,
      ge_iff_le, Option.bind_eq_bind, Option.some_bind, Option.getD_some, Option.none_bind,
      Option.getD_none] <;>
    split_ifs <;>
    simp_all

/-- C2: writing an entry into a well-formed record classifies the word
into `mastered` exactly when the written interval reaches 21 and into
`needsReview` exactly when it is below 7, and keeps the two sets
disjoint. -/
theorem setProgressEntry_membership_invariant (u : UserRecord) (w : String)
    (e : ProgressEntry)
    (hm : (masteredOf u).Nodup) (hn : (needsReviewOf u).Nodup)
    (hdisj : ∀ x, x ∈ masteredOf u → x ∉ needsReviewOf u) :
    (w ∈ masteredOf (setProgressEntry u w e) ↔ 21 ≤ e.interval) ∧
      (w ∈ needsReviewOf (setProgressEntry u w e) ↔ e.interval < 7) ∧
      (∀ x, x ∈ masteredOf (setProgressEntry u w e) →
        x ∉ needsReviewOf (setProgressEntry u w e)) := by
  rw [masteredOf_setProgressEntry, needsReviewOf_setProgressEntry]
  by_cases h21 : 21 ≤ e.interval
  · have h7 : ¬ e.interval < 7 := by linarith
    rw [if_pos h21, if_pos h21]
    refine ⟨⟨fun _ => h21, fun _ => ?_⟩, ⟨fun hmem => ?_, fun hc => absurd hc h7⟩, ?_⟩
    · by_cases hw : w ∈ masteredOf u
      · rw [if_pos hw]; exact hw
      · rw [if_neg hw]; exact List.mem_append_right _ (List.mem_singleton_self w)
    · exact absurd hmem hn.not_mem_erase
    · intro x hx hx2
      have hx2m : x ∈ needsReviewOf u := List.mem_of_mem_erase hx2
      by_cases hw : w ∈ masteredOf u
      · rw [if_pos hw] at hx
        exact hdisj x hx hx2m
      · rw [if_neg hw] at hx
        rcases List.mem_append.mp hx with hmem | hmem
        · exact hdisj x hmem hx2m
        · have hxw : x = w := List.mem_singleton.mp hmem
          subst hxw
          exact hn.not_mem_erase hx2
  · rw [if_neg h21, if_neg h21]
    by_cases h7 : e.interval < 7
    · rw [if_pos h7]
      refine ⟨⟨fun hmem => absurd hmem hm.not_mem_erase, fun hc => absurd hc h21⟩,
        ⟨fun _ => h7, fun _ => ?_⟩, ?_⟩
      · by_cases hw : w ∈ needsReviewOf u
        · rw [if_pos hw]; exact hw
        · rw [if_neg hw]; exact List.mem_append_right _ (List.mem_singleton_self w)
      · intro x hx hx2
        have hxm : x ∈ masteredOf u := List.mem_of_mem_erase hx
        have hxw : x ≠ w := by
          intro hxw
          subst hxw
          exact hm.not_mem_erase hx
        by_cases hw : w ∈ needsReviewOf u
        · rw [if_pos hw] at hx2
          exact hdisj x hxm hx2
        · rw [if_neg hw] at hx2
          rcases List.mem_append.mp hx2 with hmem | hmem
          · exact hdisj x hxm hmem
          · exact hxw (List.mem_singleton.mp hmem)
    · rw [if_neg h7]
      refine ⟨⟨fun hmem => absurd hmem hm.not_mem_erase, fun hc => absurd hc h21⟩,
        ⟨fun hmem => absurd hmem hn.not_mem_erase, fun hc => absurd hc h7⟩, ?_⟩
      intro x hx hx2
      exact hdisj x (List.mem_of_mem_erase hx) (List.mem_of_mem_erase hx2)

/-- Witness for C2: writing a 30-day entry into an empty record. -/
theorem setProgressEntry_membership_invariant_witness :
    ("w" ∈ masteredOf (setProgressEntry emptyUser "w" masteredEntry) ↔
        (21 : ℚ) ≤ masteredEntry.interval) ∧
      ("w" ∈ needsReviewOf (setProgressEntry emptyUser "w" masteredEntry) ↔
        masteredEntry.interval < 7) ∧
      (∀ x, x ∈ masteredOf (setProgressEntry emptyUser "w" masteredEntry) →
        x ∉ needsReviewOf (setProgressEntry emptyUser "w" masteredEntry)) :=
  setProgressEntry_membership_invariant emptyUser "w" masteredEntry
    (by decide) (by decide) (by simp [masteredOf, emptyUser])

/-- C4: the review endpoint does not reject an outcome outside
`{easy, medium, hard}` — a request with difficulty `impossible` is
accepted, mutates the user record, and stores the `hard`-branch entry. -/
theorem reviewStep_accepts_unknown_outcome :
    (reviewStep emptyUser "w" "impossible" 0).isSome = true ∧
      (reviewStep emptyUser "w" "impossible" 0).map Prod.fst ≠ some emptyUser ∧
      (reviewStep emptyUser "w" "impossible" 0).map (fun r => r.2.ease) =
        some (max 1.3 (2.5 - 0.2)) ∧
      (reviewStep emptyUser "w" "impossible" 0).map (fun r => r.2.interval) = some 1 ∧
      (reviewStep emptyUser "w" "impossible" 0).map (fun r => r.2.reviewCount) = some 1 :=
  ⟨rfl, by decide, rfl, rfl, rfl⟩

/-- C5: the `words.js` listing merge does not use the codec of the
review path — on a record holding a just-written review it reports the
all-defaults progress while the codec (and the flashcards listing)
reports the written entry. -/
theorem wordsMerge_stale_after_review :
    wordsMergeProgress reviewedUser "w" ≠
        normalizePrev (getProgressEntry reviewedUser "w") ∧
      wordsMergeProgress reviewedUser "w" =
        { ease := 2.5, interval := 0, reviewCount := 0
          lastReviewed := none, nextReview := none } ∧
      flashMergeProgress reviewedUser "w" = writtenEntry := by
  have h2 : wordsMergeProgress reviewedUser "w" =
      { ease := 2.5, interval := 0, reviewCount := 0
        lastReviewed := none, nextReview := none } := rfl
  have h3 : normalizePrev (getProgressEntry reviewedUser "w") = writtenEntry := rfl
  refine ⟨?_, h2, h3⟩
  rw [h2, h3]
  intro h
  have hi := congrArg ProgressEntry.interval h
  simp only [writtenEntry] at hi
  norm_num at hi

/-- C8: deleting a vocabulary item removes only the nested
`progress.words.map` key — the flat mapping, the history log and the
`mastered` set keep the word id, and a subsequent codec read still
resolves the dangling entry. -/
theorem deleteWord_leaves_dangling_refs :
    ("w" ∈ masteredOf (deleteWordFromRecord masteredUser "w")) ∧
      ((historyOf (deleteWordFromRecord masteredUser "w")).find?
          (fun e => e.wordId = "w")).isSome = true ∧
      (lookupEntry (flatWordsOf (deleteWordFromRecord masteredUser "w")) "w").isSome
          = true ∧
      getProgressEntry (deleteWordFromRecord masteredUser "w") "w" =
          toRaw masteredEntry ∧
      lookupEntry (nestedWordsOf (deleteWordFromRecord masteredUser "w")) "w" = none :=
  ⟨by decide, by decide, by decide, rfl, by decide⟩

/-- The due predicate as the claim words it: due iff the codec entry has
no next-review timestamp or one that is not after `now`. -/
def dueSpecPred (u : UserRecord) (now : ℚ) (w : String) : Prop :=
  (getProgressEntry u w).nextReview = none ∨
    ∃ t, (getProgressEntry u w).nextReview = some t ∧ t ≤ now

/-- The boolean due filter agrees with the claimed predicate. -/
lemma dueWord_iff (u : UserRecord) (now : ℚ) (w : String) :
    dueWord u now w = true ↔ dueSpecPred u now w := by
  rcases hnr : (getProgressEntry u w).nextReview with _ | t <;>
    simp [dueWord, dueSpecPred, hnr]

/-- C6: the due list is the subsequence of the catalog, in catalog
order, of exactly the items whose codec entry has `nextReview` absent or
`≤ now`; an item with no next-review timestamp is always included. -/
theorem dueList_catalog_filter (c : List String) (u : UserRecord) (now : ℚ) :
    (dueList c u now).Sublist c ∧
      (∀ w, w ∈ dueList c u now ↔ w ∈ c ∧ dueSpecPred u now w) ∧
      (∀ w, w ∈ c → (getProgressEntry u w).nextReview = none →
        w ∈ dueList c u now) := by
  refine ⟨List.filter_sublist _, fun w => ?_, fun w hw hn => ?_⟩
  · rw [dueList, List.mem_filter, dueWord_iff]
  · rw [dueList, List.mem_filter]
    exact ⟨hw, by simp [dueWord, hn]⟩

/-- Witness for C6: a never-reviewed word is due at time zero. -/
theorem dueList_catalog_filter_witness :
    "a" ∈ dueList ["a"] { progress := none } 0 :=
  (dueList_catalog_filter ["a"] { progress := none } 0).2.2 "a"
    (List.mem_singleton_self "a") rfl
